import Mathlib

/-!
Verification of the resumable unit-of-work transcription pipeline
(`ocr_pipeline.py` and `transcribe.py`).

Strings are modelled as `List Char`; the external recognition and
download services are modelled as oracles (functions passed in as
parameters); the per-unit cache is modelled as a function
`Nat → Option (List Char)`; the unbounded retry loop is modelled with an
explicit fuel parameter (returning `none` when the fuel runs out, which
the real loop never does).
-/

namespace PyStr

/-- Python whitespace characters stripped by `str.strip()` (ASCII part). -/
def pyWS (c : Char) : Bool :=
  c == ' ' || c == '\t' || c == '\n' || c == '\r' || c == '\x0b' || c == '\x0c'

/-- Python `str.lstrip()`. -/
def lstrip (s : List Char) : List Char := s.dropWhile pyWS

/-- Python `str.rstrip()`. -/
def rstrip (s : List Char) : List Char := ((s.reverse.dropWhile pyWS)).reverse

/-- Python `str.strip()`. -/
def strip (s : List Char) : List Char := rstrip (lstrip s)

/-- One decimal digit character (`0`–`9`). -/
def digitChar : Nat → Char
  | 0 => '0'
  | 1 => '1'
  | 2 => '2'
  | 3 => '3'
  | 4 => '4'
  | 5 => '5'
  | 6 => '6'
  | 7 => '7'
  | 8 => '8'
  | _ => '9'

/-- Decimal rendering, structurally recursive on a fuel argument (the
number itself serves as ample fuel for its digit count). -/
def natDigitsGo : Nat → Nat → List Char
  | 0, n => [digitChar n]
  | fuel + 1, n =>
    if n < 10 then [digitChar n]
    else natDigitsGo fuel (n / 10) ++ [digitChar (n % 10)]

/-- Decimal rendering of a natural number, as produced by Python string
formatting of `page_num`. -/
def natDigits (n : Nat) : List Char := natDigitsGo n n

end PyStr

namespace OCRPipeline

open PyStr

/-- The per-page cache directory of `process_pdf`: page number to cached
page text (`output_texts/<base>/page_NNN.txt`). -/
def Cache : Type := Nat → Option (List Char)

/-- Writing one page file into the cache directory. -/
def update (c : Cache) (i : Nat) (t : List Char) : Cache :=
  fun j => if j = i then some t else c j

/-- The empty cache directory. -/
def emptyCache : Cache := fun _ => none

/-- The canonical page header `=== Page {page_num} ===` emitted by
`process_pdf` during reassembly. -/
def header (i : Nat) : List Char :=
  ['=', '=', '=', ' ', 'P', 'a', 'g', 'e', ' '] ++ natDigits i ++ [' ', '=', '=', '=']

/-- Errors raised by `process_pdf` (Python `RuntimeError` on empty OCR
output, `FileNotFoundError` on a missing page file, plus fuel exhaustion
which the unbounded Python loop never reaches). -/
inductive PErr : Type
  | emptyOutput (page : Nat)
  | missingPage
  | noFuel
deriving DecidableEq

/-- Model of `gemini_generate_with_retry`, inner loop: `call` maps the attempt
number to the outcome of `model.generate_content`; on an exception the
loop sleeps `min(60, 5 * attempt)` seconds and retries.  Returns
`(attempt, sleeps, response)` on success, `none` when the fuel runs out
(the Python loop is unbounded and has no such case). -/
def geminiRetryAux {α : Type} (call : Nat → Except String α) :
    Nat → Nat → List Nat → Option (Nat × List Nat × α)
  | 0, _, _ => none
  | fuel + 1, attempt, sleeps =>
    match call attempt with
    | Except.ok r => some (attempt, sleeps, r)
    | Except.error _ =>
      geminiRetryAux call fuel (attempt + 1) (sleeps ++ [min 60 (5 * attempt)])

/-- Model of `gemini_generate_with_retry`: starts at `attempt = 1` with no sleeps
performed yet. -/
def gemini_generate_with_retry {α : Type} (call : Nat → Except String α) (fuel : Nat) :
    Option (Nat × List Nat × α) :=
  geminiRetryAux call fuel 1 []

/-- The per-page loop of `process_pdf`: skip cached pages, otherwise call
Gemini through the retry wrapper, strip the response text, raise on an
empty result, and cache the page file.  `call page attempt` is the
outcome of the page's Gemini call at the given attempt.  Returns the
error if any (`none` on success), the cache state (files written so far
persist even when an error is raised), and the number of pages for which
a Gemini call was made. -/
def processPages (call : Nat → Nat → Except String (List Char)) (fuel : Nat) :
    List Nat → Cache → Nat → Option PErr × Cache × Nat
  | [], cache, calls => (none, cache, calls)
  | i :: rest, cache, calls =>
    match cache i with
    | some _ => processPages call fuel rest cache calls
    | none =>
      match gemini_generate_with_retry (call i) fuel with
      | none => (some PErr.noFuel, cache, calls)
      | some (_attempt, _sleeps, resp) =>
        let text := strip resp
        if text = [] then (some (PErr.emptyOutput i), cache, calls + 1)
        else processPages call fuel rest (update cache i text) (calls + 1)

/-- The section emitted for one page during reassembly: the canonical
header, a newline, the cached text with a duplicate leading header
stripped (`lstrip`, drop the header, `lstrip` again), right-stripped,
then a blank line. -/
def sectionFor (i : Nat) (t : List Char) : List Char :=
  let pt := lstrip t
  let pt2 := if (header i).isPrefixOf pt then lstrip (pt.drop (header i).length) else pt
  header i ++ '\n' :: (rstrip pt2 ++ ['\n', '\n'])

/-- The reassembly loop of `process_pdf`: for each page write the header
line, then open the page file; a missing page file raises
`FileNotFoundError` after the header has already been written (the
output file was opened with mode `w`, so its previous contents are
already gone).  Returns the file contents on disk and whether the loop
completed. -/
def assembleAux (cache : Cache) : List Nat → List Char → List Char × Bool
  | [], acc => (acc, true)
  | i :: rest, acc =>
    match cache i with
    | none => (acc ++ header i ++ ['\n'], false)
    | some t => assembleAux cache rest (acc ++ sectionFor i t)

/-- Reassembly of the final output file from the cache, pages `1..n`. -/
def assembleFile (cache : Cache) (n : Nat) : List Char × Bool :=
  assembleAux cache (List.range' 1 n) []

/-- Model of `process_pdf` for an `n`-page PDF: the per-page loop followed by the
unconditional rebuild of the final output from the cache.  Returns the
error if any, the final cache state, the number of Gemini page calls,
and the final output contents when the rebuild ran. -/
def process_pdf (call : Nat → Nat → Except String (List Char)) (fuel : Nat)
    (n : Nat) (cache : Cache) : Option PErr × Cache × Nat × Option (List Char) :=
  match processPages call fuel (List.range' 1 n) cache 0 with
  | (some e, c, k) => (some e, c, k, none)
  | (none, c, k) =>
    match assembleFile c n with
    | (contents, true) => (none, c, k, some contents)
    | (contents, false) => (some PErr.missingPage, c, k, some contents)

/-- The batch loop of `main` in `ocr_pipeline.py`: each PDF is processed
in order with no exception handling, so the first failing artifact
aborts the batch.  `runOne` abstracts `process_pdf` on one artifact.
Returns the artifacts completed before any error, and the error. -/
def ocrBatch (runOne : String → Except String Unit) :
    List String → List String × Option String
  | [] => ([], none)
  | a :: rest =>
    match runOne a with
    | Except.error e => ([], some e)
    | Except.ok _ =>
      let r := ocrBatch runOne rest
      (a :: r.1, r.2)

/-- A cache directory built by writing the given `(page, text)` entries
in the given order. -/
def buildCache (l : List (Nat × List Char)) : Cache :=
  l.foldl (fun c p => update c p.1 p.2) emptyCache

/-- Number of occurrences of `pat` as a contiguous substring of `s`
(counted at every start position). -/
def countOccs (pat : List Char) : List Char → Nat
  | [] => if pat = [] then 1 else 0
  | c :: rest => (if pat.isPrefixOf (c :: rest) then 1 else 0) + countOccs pat rest

end OCRPipeline

namespace Transcribe

open PyStr

/-- The character class `[\\/:*?"<>|]` replaced by `sanitize_filename`. -/
def forbidden (c : Char) : Bool :=
  c == '\\' || c == '/' || c == ':' || c == '*' || c == '?' || c == '"' ||
    c == '<' || c == '>' || c == '|'

/-- First substitution of `sanitize_filename`:
`re.sub(r"[\\/:*?\"<>|]", "_", name)`. -/
def replaceForbidden (s : List Char) : List Char :=
  s.map (fun c => if forbidden c then '_' else c)

/-- Second substitution of `sanitize_filename`: `re.sub(r"\s+", "_", name)`
collapses every maximal run of whitespace (per the predicate `isWS`) into a
single underscore.  The flag records whether the previous character was
whitespace. -/
def collapseWs (isWS : Char → Bool) : Bool → List Char → List Char
  | _, [] => []
  | prev, c :: rest =>
    if isWS c then
      (if prev then collapseWs isWS true rest else '_' :: collapseWs isWS true rest)
    else c :: collapseWs isWS false rest

/-- Python `str.strip(chars)` for a single character class `p`: drop matching
characters from both ends. -/
def stripChar (p : Char → Bool) (s : List Char) : List Char :=
  ((s.dropWhile p).reverse.dropWhile p).reverse

/-- Model of `sanitize_filename(name, max_len)`: NFKC-normalize (the Unicode table is
external, passed as the oracle `nfkc`), replace the forbidden characters by
underscores, collapse whitespace runs to underscores, strip underscores from
both ends, then truncate to `max_len` (default 180). -/
def sanitize_filename (nfkc : List Char → List Char) (isWS : Char → Bool)
    (name : List Char) (maxLen : Nat) : List Char :=
  (stripChar (fun c => c == '_') (collapseWs isWS false (replaceForbidden (nfkc name)))).take maxLen

/-- Outcome of `ydl.extract_info` for one URL in `expand_urls` (the network
call is external): a playlist with its entries (entries without an `id` are
modelled as `none`), a plain video, or a raised exception. -/
inductive ExtractResult : Type
  | playlist (title : String) (entries : List (Option String))
  | single
  | failure (msg : String)

/-- The watch URL built for a playlist entry in `expand_urls`. -/
def watchUrl (id : String) : String :=
  "https://www.youtube.com/watch?v=" ++ id

/-- One iteration of the `expand_urls` loop: normalize the URL (the
`list=`-regex rewrite is external string matching, passed as `normalize`),
extract; a playlist contributes a watch URL per entry that has an id, a plain
video contributes the (normalized) URL itself, a failed extraction is caught,
logged and contributes nothing. -/
def expandOne (normalize : String → String) (extract : String → ExtractResult)
    (url : String) : List String :=
  let u := normalize url
  match extract u with
  | ExtractResult.playlist _ entries => entries.filterMap (fun e => e.map watchUrl)
  | ExtractResult.single => [u]
  | ExtractResult.failure _ => []

/-- The `expanded` list accumulated by the `expand_urls` loop. -/
def expandPhase (normalize : String → String) (extract : String → ExtractResult)
    (urls : List String) : List String :=
  urls.foldl (fun acc url => acc ++ expandOne normalize extract url) []

/-- One step of the final deduplication loop of `expand_urls`: the pair is
`(seen, result)`; a URL already seen is dropped, otherwise it is recorded and
appended to the result. -/
def dedupStep (acc : List String × List String) (u : String) :
    List String × List String :=
  if u ∈ acc.1 then acc else (u :: acc.1, acc.2 ++ [u])

/-- The `# Deduplicate while preserving order` loop of `expand_urls`. -/
def dedupSeen (l : List String) : List String :=
  (l.foldl dedupStep ([], [])).2

/-- Model of `expand_urls`: expansion followed by order-preserving deduplication. -/
def expand_urls (normalize : String → String) (extract : String → ExtractResult)
    (urls : List String) : List String :=
  dedupSeen (expandPhase normalize extract urls)

/-- Spec-side description of order-preserving deduplication (for the
refinement claim about `expand_urls`): keep each URL's first occurrence, in
order, deleting its later duplicates. -/
def dedupSpec : List String → List String
  | [] => []
  | x :: xs => x :: dedupSpec (xs.filter (fun y => y != x))
termination_by l => l.length
decreasing_by
  exact Nat.lt_succ_of_le (List.length_filter_le _ _)

/-- Recursive form of the deduplication loop, carrying the `seen` set. -/
def dedupAux : List String → List String → List String
  | [], _ => []
  | u :: rest, seen =>
    if u ∈ seen then dedupAux rest seen else u :: dedupAux rest (u :: seen)

/-- The bounded download retry of `main` in `transcribe.py`:
`for attempt in range(1, 4)`, on an exception print and `time.sleep(5)`,
on success break.  `dl` maps the attempt number to the download outcome;
the argument list is the remaining attempt numbers.  Returns the result
(`none` when every attempt failed), the number of attempts made, and the
sleeps performed. -/
def download_retry (dl : Nat → Except String (String × String)) :
    List Nat → Option (String × String) × Nat × List Nat
  | [] => (none, 0, [])
  | a :: rest =>
    match dl a with
    | Except.ok x => (some x, 1, [])
    | Except.error _ =>
      let r := download_retry dl rest
      (r.1, r.2.1 + 1, 5 :: r.2.2)

/-- Per-video outcome in the `main` loop of `transcribe.py`. -/
inductive Outcome : Type
  | skippedDownload
  | cachedExists
  | done
  | failed
deriving DecidableEq

/-- The external collaborators of the `main` loop of `transcribe.py`:
the downloader plus metadata resolver (url and attempt number to
`(video_id, title)`), the Gemini transcription response text for an mp3,
the NFKC table, and the configured prompt name. -/
structure Oracles : Type where
  dl : String → Nat → Except String (String × String)
  transcribeResp : String → Except String (List Char)
  nfkc : List Char → List Char
  promptName : String

/-- Model of `get_output_path`: the file name is the video id, the sanitized title and the prompt name joined by underscores, with extension txt, inside
the transcripts directory. -/
def get_output_path (o : Oracles) (videoId title : String) : String :=
  videoId ++ "__" ++ String.mk (sanitize_filename o.nfkc Char.isWhitespace title.data 180)
    ++ "_" ++ o.promptName ++ ".txt"

/-- Processing of one URL inside the `main` loop of `transcribe.py`
(the body of the outer `try`): bounded download retry with skip on
exhaustion; skip if the output file already exists; otherwise call Gemini,
strip the response, and treat an empty transcription like any other
exception (caught by the outer handler, video marked failed).  Returns the
new set of transcript files, the outcome, and the number of Gemini
transcription calls made. -/
def transcribe_step (o : Oracles) (transcripts : List String) (url : String) :
    List String × Outcome × Nat :=
  match (download_retry (o.dl url) [1, 2, 3]).1 with
  | none => (transcripts, Outcome.skippedDownload, 0)
  | some (videoId, title) =>
    let out := get_output_path o videoId title
    if out ∈ transcripts then (transcripts, Outcome.cachedExists, 0)
    else
      match o.transcribeResp videoId with
      | Except.error _ => (transcripts, Outcome.failed, 1)
      | Except.ok resp =>
        let text := strip resp
        if text = [] then (transcripts, Outcome.failed, 1)
        else (out :: transcripts, Outcome.done, 1)

/-- The per-URL loop of `main` in `transcribe.py`: every URL is processed,
each step's exceptions being confined to that URL. -/
def processLoop (o : Oracles) : List String → List String → List String × List (Outcome × Nat)
  | [], transcripts => (transcripts, [])
  | url :: rest, transcripts =>
    let s := transcribe_step o transcripts url
    let r := processLoop o rest s.1
    (r.1, (s.2.1, s.2.2) :: r.2)

/-- The transcripts directory and the archive directory. -/
structure TState : Type where
  transcripts : List String
  archived : List String
deriving DecidableEq

/-- Model of `archive_old_transcripts`: move every `.txt` file out of the
transcripts directory into a fresh archive directory (a no-op when there
are none, which yields the same state). -/
def archive_old_transcripts (s : TState) : TState :=
  { transcripts := [], archived := s.archived ++ s.transcripts }

/-- Model of `main` of `transcribe.py` on an already-expanded URL list: archive the
previous transcripts, then run the per-URL loop. -/
def transcribe_main (o : Oracles) (urls : List String) (s : TState) :
    TState × List (Outcome × Nat) :=
  let s1 := archive_old_transcripts s
  let r := processLoop o urls s1.transcripts
  ({ transcripts := r.1, archived := s1.archived }, r.2)

end Transcribe

/-! ## Lemmas about the recognition retry executor -/

namespace OCRPipeline

theorem geminiRetryAux_spec {α : Type} (call : Nat → Except String α) (k : Nat) (t : α)
    (hk : call k = Except.ok t) :
    ∀ fuel attempt sleeps, attempt ≤ k → k - attempt < fuel →
      (∀ n, attempt ≤ n → n < k → (call n).isOk = false) →
      geminiRetryAux call fuel attempt sleeps =
        some (k, sleeps ++ (List.range' attempt (k - attempt)).map (fun n => min 60 (5 * n)), t) := by
  intro fuel
  induction fuel with
  | zero => intro attempt sleeps _ hlt _; omega
  | succ fuel ih =>
    intro attempt sleeps hle hlt hfail
    rcases Nat.eq_or_lt_of_le hle with heq | hlt2
    · subst heq
      simp [geminiRetryAux, hk]
    · have hiso : (call attempt).isOk = false := hfail attempt le_rfl hlt2
      rcases hc : call attempt with e | r
      · have hrec := ih (attempt + 1) (sleeps ++ [min 60 (5 * attempt)])
          (by omega) (by omega) (fun n h1 h2 => hfail n (by omega) h2)
        obtain ⟨m, hm⟩ : ∃ m, k - attempt = m + 1 := ⟨k - attempt - 1, by omega⟩
        have hrange : List.range' attempt (k - attempt) =
            attempt :: List.range' (attempt + 1) m := by
          rw [hm, List.range'_succ]
        have hm2 : k - (attempt + 1) = m := by omega
        simp only [geminiRetryAux, hc, hrec, hm2, hrange, List.map_cons]
        simp
      · rw [hc] at hiso; simp [Except.isOk, Except.toBool] at hiso

end OCRPipeline

/-- C1: for every fallible recognition call wrapped by the retry executor,
attempts are unbounded (any number `k - 1` of consecutive failures is
eventually overcome, for every `k`) and the sleep performed before attempt
`n + 1` equals `min 60 (5 * n)` seconds; the successful result is returned
together with the attempt count. -/
theorem C1_retry_linear_backoff_unbounded {α : Type}
    (call : Nat → Except String α) (k : Nat) (t : α) (fuel : Nat)
    (h1 : 1 ≤ k) (h2 : k ≤ fuel)
    (hfail : ∀ n, n < k → 1 ≤ n → (call n).isOk = false)
    (hok : call k = Except.ok t) :
    OCRPipeline.gemini_generate_with_retry call fuel =
      some (k, (List.range' 1 (k - 1)).map (fun n => min 60 (5 * n)), t) := by
  have := OCRPipeline.geminiRetryAux_spec call k t hok fuel 1 [] h1 (by omega)
    (fun n hn1 hn2 => hfail n hn2 hn1)
  simpa [OCRPipeline.gemini_generate_with_retry] using this

/-- C1 witness: a call that fails exactly twice and then succeeds makes
exactly 3 attempts, sleeps 5s then 10s (total 15s), and the successful
text is returned. -/
theorem C1_retry_witness :
    OCRPipeline.gemini_generate_with_retry
        (fun n => if n < 3 then Except.error "transient" else Except.ok "text") 3 =
      some (3, [5, 10], "text") ∧ [5, 10].sum = 15 := by
  have h := C1_retry_linear_backoff_unbounded
    (fun n => if n < 3 then Except.error "transient" else Except.ok "text")
    3 "text" 3 (by decide) (by decide) (by decide) rfl
  exact ⟨by simpa using h, by decide⟩

/-! ## Lemmas about the per-page processing loop -/

namespace OCRPipeline

open PyStr

theorem processPages_ok (call : Nat → Nat → Except String (List Char)) (fuel : Nat) :
    ∀ (l : List Nat) (cache : Cache) (k : Nat) (c' : Cache) (k' : Nat),
      processPages call fuel l cache k = (none, c', k') →
      (∀ j t, cache j = some t → c' j = some t) ∧ (∀ i ∈ l, (c' i).isSome = true) := by
  intro l
  induction l with
  | nil =>
    intro cache k c' k' h
    simp only [processPages, Prod.mk.injEq] at h
    obtain ⟨hc, -⟩ := h.2
    subst hc
    exact ⟨fun j t ht => ht, by simp⟩
  | cons i rest ih =>
    intro cache k c' k' h
    rcases hc : cache i with - | t
    · rcases hg : gemini_generate_with_retry (call i) fuel with - | ⟨a, s, resp⟩
      · simp [processPages, hc, hg] at h
      · by_cases ht : strip resp = []
        · simp [processPages, hc, hg, ht] at h
        · simp only [processPages, hc, hg, ht, if_neg] at h
          obtain ⟨hpres, htot⟩ := ih _ _ _ _ h
          have hupd : ∀ j t', cache j = some t' → update cache i (strip resp) j = some t' := by
            intro j t' hj
            have hne : j ≠ i := fun he => by rw [he, hc] at hj; exact Option.noConfusion hj
            simpa [update, hne] using hj
          refine ⟨fun j t' hj => hpres j t' (hupd j t' hj), ?_⟩
          intro j hj
          rcases List.mem_cons.mp hj with he | hm
          · subst he
            have : update cache j (strip resp) j = some (strip resp) := by simp [update]
            rw [hpres j _ this]
            rfl
          · exact htot j hm
    · simp only [processPages, hc] at h
      obtain ⟨hpres, htot⟩ := ih _ _ _ _ h
      refine ⟨hpres, ?_⟩
      intro j hj
      rcases List.mem_cons.mp hj with he | hm
      · subst he
        rw [hpres j t hc]
        rfl
      · exact htot j hm

theorem processPages_allHit (call : Nat → Nat → Except String (List Char)) (fuel : Nat) :
    ∀ (l : List Nat) (cache : Cache) (k : Nat),
      (∀ i ∈ l, (cache i).isSome = true) →
      processPages call fuel l cache k = (none, cache, k) := by
  intro l
  induction l with
  | nil => intro cache k _; rfl
  | cons i rest ih =>
    intro cache k h
    rcases Option.isSome_iff_exists.mp (h i (by simp)) with ⟨t, ht⟩
    simp only [processPages, ht]
    exact ih cache k (fun j hj => h j (by simp [hj]))

/-! ## Lemmas about reassembly -/

theorem assembleAux_complete (cache : Cache) :
    ∀ (l : List Nat), (∀ i ∈ l, (cache i).isSome = true) →
      ∀ (l₂ : List Nat) (acc : List Char),
        assembleAux cache (l ++ l₂) acc =
          assembleAux cache l₂
            (acc ++ (l.map (fun i => sectionFor i ((cache i).getD []))).flatten) := by
  intro l
  induction l with
  | nil => intro _ l₂ acc; simp
  | cons i rest ih =>
    intro h l₂ acc
    rcases Option.isSome_iff_exists.mp (h i (by simp)) with ⟨t, ht⟩
    have hget : ((cache i).getD []) = t := by rw [ht]; rfl
    simp only [List.cons_append, assembleAux, ht, List.map_cons, List.flatten_cons, hget,
      List.append_eq]
    rw [ih (fun j hj => h j (by simp [hj])) l₂ (acc ++ sectionFor i t)]
    simp [List.append_assoc]

theorem assembleFile_complete (cache : Cache) (n : Nat)
    (h : ∀ i, i ≤ n → 1 ≤ i → (cache i).isSome = true) :
    assembleFile cache n =
      (((List.range' 1 n).map (fun i => sectionFor i ((cache i).getD []))).flatten, true) := by
  have hm : ∀ i ∈ List.range' 1 n, (cache i).isSome = true := by
    intro i hi
    rw [List.mem_range'_1] at hi
    exact h i (by omega) (by omega)
  have := assembleAux_complete cache (List.range' 1 n) hm [] []
  simpa [assembleFile, assembleAux] using this

theorem buildCacheFrom_not_mem :
    ∀ (l : List (Nat × List Char)) (c : Cache) (j : Nat),
      j ∉ l.map Prod.fst → l.foldl (fun c p => update c p.1 p.2) c j = c j := by
  intro l
  induction l with
  | nil => intro c j _; rfl
  | cons p rest ih =>
    intro c j hj
    simp only [List.map_cons, List.mem_cons, not_or] at hj
    simp only [List.foldl_cons]
    rw [ih _ j hj.2]
    simp [update, hj.1]

theorem buildCacheFrom_mem :
    ∀ (l : List (Nat × List Char)) (c : Cache) (j : Nat) (t : List Char),
      (l.map Prod.fst).Nodup → (j, t) ∈ l →
      l.foldl (fun c p => update c p.1 p.2) c j = some t := by
  intro l
  induction l with
  | nil => intro c j t _ h; simp at h
  | cons p rest ih =>
    intro c j t hnd hmem
    simp only [List.map_cons, List.nodup_cons] at hnd
    rcases List.mem_cons.mp hmem with heq | hmem2
    · subst heq
      simp only [List.foldl_cons]
      rw [buildCacheFrom_not_mem rest _ j (by simpa using hnd.1)]
      simp [update]
    · simp only [List.foldl_cons]
      exact ih _ j t hnd.2 hmem2

theorem buildCache_perm (l₁ l₂ : List (Nat × List Char)) (hp : l₁.Perm l₂)
    (hnd : (l₁.map Prod.fst).Nodup) : buildCache l₁ = buildCache l₂ := by
  have hnd₂ : (l₂.map Prod.fst).Nodup := ((hp.map Prod.fst).nodup_iff).mp hnd
  funext j
  by_cases hj : j ∈ l₁.map Prod.fst
  · rcases List.mem_map.mp hj with ⟨p, hpmem, hpj⟩
    have hp1 : (j, p.2) ∈ l₁ := by rw [← hpj]; simpa using hpmem
    have hp2 : (j, p.2) ∈ l₂ := hp.mem_iff.mp hp1
    rw [buildCache, buildCache, buildCacheFrom_mem l₁ _ j p.2 hnd hp1,
      buildCacheFrom_mem l₂ _ j p.2 hnd₂ hp2]
  · have hj₂ : j ∉ l₂.map Prod.fst := fun hc => hj (((hp.map Prod.fst).mem_iff).mpr hc)
    rw [buildCache, buildCache, buildCacheFrom_not_mem _ _ _ hj,
      buildCacheFrom_not_mem _ _ _ hj₂]

end OCRPipeline

/-- C2 (amended): an empty or whitespace-only recognition result is never
written to the cache; but instead of being retried like a transport failure
it is terminal: in the OCR pipeline the retry executor returns the empty
response after that single successful-transport attempt (no further attempt,
no sleep) and the page loop raises leaving the cache unchanged; in the audio
pipeline the empty transcription makes the video fail without writing a
transcript. -/
theorem C2_empty_result_terminal :
    (∀ (call : Nat → Nat → Except String (List Char)) (fuel : Nat)
        (cache : OCRPipeline.Cache) (i : Nat) (resp : List Char),
        cache i = none →
        call i 1 = Except.ok resp →
        PyStr.strip resp = [] →
        1 ≤ fuel →
        OCRPipeline.gemini_generate_with_retry (call i) fuel = some (1, [], resp) ∧
        OCRPipeline.processPages call fuel [i] cache 0 =
          (some (OCRPipeline.PErr.emptyOutput i), cache, 1)) ∧
    (∀ (o : Transcribe.Oracles) (transcripts : List String) (url videoId title : String)
        (resp : List Char),
        (Transcribe.download_retry (o.dl url) [1, 2, 3]).1 = some (videoId, title) →
        Transcribe.get_output_path o videoId title ∉ transcripts →
        o.transcribeResp videoId = Except.ok resp →
        PyStr.strip resp = [] →
        Transcribe.transcribe_step o transcripts url =
          (transcripts, Transcribe.Outcome.failed, 1)) := by
  constructor
  · intro call fuel cache i resp hcache hcall hstrip hfuel
    obtain ⟨f, rfl⟩ : ∃ f, fuel = f + 1 := ⟨fuel - 1, by omega⟩
    have hg : OCRPipeline.gemini_generate_with_retry (call i) (f + 1) = some (1, [], resp) := by
      simp [OCRPipeline.gemini_generate_with_retry, OCRPipeline.geminiRetryAux, hcall]
    refine ⟨hg, ?_⟩
    simp [OCRPipeline.processPages, hcache, hg, hstrip]
  · intro o transcripts url videoId title resp hdl hout htr hstrip
    simp [Transcribe.transcribe_step, hdl, hout, htr, hstrip]

/-- C2 witness: a whitespace-only recognition response on page 1 with an
empty cache: the retry executor returns it after exactly one attempt with
no sleeps, the page loop raises the empty-output error with the cache
unchanged, and the audio pipeline marks the video failed after one call. -/
theorem C2_empty_result_witness :
    (OCRPipeline.gemini_generate_with_retry
        ((fun (_ : Nat) (_ : Nat) => Except.ok [' ']) 1) 1 = some (1, [], [' ']) ∧
      OCRPipeline.processPages (fun _ _ => Except.ok [' ']) 1 [1] OCRPipeline.emptyCache 0 =
        (some (OCRPipeline.PErr.emptyOutput 1), OCRPipeline.emptyCache, 1)) ∧
    Transcribe.transcribe_step
        ⟨fun _ _ => Except.ok ("vid", "title"), fun _ => Except.ok [' '], id, "P"⟩ [] "u" =
      ([], Transcribe.Outcome.failed, 1) := by
  constructor
  · exact C2_empty_result_terminal.1 (fun _ _ => Except.ok [' ']) 1
      OCRPipeline.emptyCache 1 [' '] rfl rfl (by decide) (by decide)
  · exact C2_empty_result_terminal.2
      ⟨fun _ _ => Except.ok ("vid", "title"), fun _ => Except.ok [' '], id, "P"⟩
      [] "u" "vid" "title" [' '] rfl (by simp) rfl (by decide)

/-- C2 counterexample: the claim says an empty recognition result is retried
exactly like a transport failure; in the code it is terminal.  Here the call
returns a whitespace-only text on attempt 1 and a real text on attempt 2, so
a retry would succeed; yet the retry executor accepts the whitespace response
at attempt 1 (no sleeps, no second attempt) and the page loop raises a
terminal error without caching anything. -/
theorem C2_empty_retry_counterexample :
    PyStr.strip [' '] = [] ∧
    ((fun (_ : Nat) (a : Nat) => if a = 1 then (Except.ok [' '] : Except String (List Char)) else Except.ok ['t']) 1 2).isOk
      = true ∧
    OCRPipeline.gemini_generate_with_retry
        ((fun (_ : Nat) (a : Nat) => if a = 1 then (Except.ok [' '] : Except String (List Char)) else Except.ok ['t']) 1) 9 =
      some (1, [], [' ']) ∧
    OCRPipeline.processPages
        (fun (_ : Nat) (a : Nat) => if a = 1 then (Except.ok [' '] : Except String (List Char)) else Except.ok ['t'])
        9 [1] OCRPipeline.emptyCache 0 =
      (some (OCRPipeline.PErr.emptyOutput 1), OCRPipeline.emptyCache, 1) :=
  ⟨rfl, rfl, rfl, rfl⟩

/-- C3 (amended): when some unit `j` lacks a cache entry at assembly time
(all earlier units being cached), reassembly raises an error — but only
after the final output file has been truncated and partially written: the
file on disk holds the sections of units `1..j-1` followed by unit `j`'s
header line. -/
theorem C3_assembly_partial_write (cache : OCRPipeline.Cache) (n j : Nat)
    (h1 : 1 ≤ j) (h2 : j ≤ n)
    (hpresent : ∀ i, i < j → 1 ≤ i → (cache i).isSome = true)
    (hmissing : cache j = none) :
    OCRPipeline.assembleFile cache n =
      (((List.range' 1 (j - 1)).map
          (fun i => OCRPipeline.sectionFor i ((cache i).getD []))).flatten
        ++ OCRPipeline.header j ++ ['\n'], false) := by
  have hsplit : List.range' 1 (j - 1) ++ List.range' j (n - j + 1) = List.range' 1 n := by
    have := List.range'_append 1 (j - 1) (n - j + 1) 1
    simp only [one_mul] at this
    rw [show 1 + (j - 1) = j by omega] at this
    rw [show n - j + 1 + (j - 1) = n by omega] at this
    exact this
  have hpre : ∀ i ∈ List.range' 1 (j - 1), (cache i).isSome = true := by
    intro i hi
    rw [List.mem_range'_1] at hi
    exact hpresent i (by omega) (by omega)
  rw [OCRPipeline.assembleFile, ← hsplit,
    OCRPipeline.assembleAux_complete cache _ hpre _ []]
  obtain ⟨m, hm⟩ : ∃ m, n - j + 1 = m + 1 := ⟨n - j, rfl⟩
  rw [hm, List.range'_succ]
  simp [OCRPipeline.assembleAux, hmissing]

/-- C3 witness: the spec's own example — 5 decomposed units, only units 1–4
cached — raises and leaves the four assembled sections plus the header of
page 5 in the output file. -/
theorem C3_assembly_partial_write_witness :
    OCRPipeline.assembleFile (fun i => if 1 ≤ i ∧ i ≤ 4 then some ['x'] else none) 5 =
      (((List.range' 1 4).map
          (fun i => OCRPipeline.sectionFor i
            (((fun i => if 1 ≤ i ∧ i ≤ 4 then some ['x'] else none) i).getD []))).flatten
        ++ OCRPipeline.header 5 ++ ['\n'], false) := by
  exact C3_assembly_partial_write (fun i => if 1 ≤ i ∧ i ≤ 4 then some ['x'] else none)
    5 5 (by decide) (by decide) (by decide) (by decide)

/-- C3 counterexample: the claim says no partial output is written when a
cache entry is missing; in the code the output file is opened with mode `w`
(truncating any previous final output) before the cache entries are read, so
on a missing fifth entry the failed assembly leaves a non-empty partial
output file. -/
theorem C3_no_partial_write_counterexample :
    (OCRPipeline.assembleFile (fun i => if 1 ≤ i ∧ i ≤ 4 then some ['x'] else none) 5).2
      = false ∧
    (OCRPipeline.assembleFile (fun i => if 1 ≤ i ∧ i ≤ 4 then some ['x'] else none) 5).1
      ≠ [] := by
  constructor
  · rfl
  · decide

/-- C4 (amended): the OCR pipeline is idempotent — after a successful
`process_pdf` run, a second run on the same artifact with the now-warm cache
performs zero recognition calls (whatever its recognition oracle does, even
with no fuel) and produces a byte-identical final output with an unchanged
cache.  (In the audio pipeline this fails: see the counterexample.) -/
theorem C4_ocr_warm_cache_idempotent
    (call : Nat → Nat → Except String (List Char)) (fuel n : Nat)
    (cache : OCRPipeline.Cache)
    (h : (OCRPipeline.process_pdf call fuel n cache).1 = none) :
    ∀ (call₂ : Nat → Nat → Except String (List Char)) (fuel₂ : Nat),
      OCRPipeline.process_pdf call₂ fuel₂ n ((OCRPipeline.process_pdf call fuel n cache).2.1) =
        (none, (OCRPipeline.process_pdf call fuel n cache).2.1, 0,
          (OCRPipeline.process_pdf call fuel n cache).2.2.2) := by
  intro call₂ fuel₂
  rcases hp : OCRPipeline.processPages call fuel (List.range' 1 n) cache 0 with ⟨oe, c, k⟩
  rcases oe with - | e
  · rcases ha : OCRPipeline.assembleFile c n with ⟨contents, ok⟩
    rcases ok with - | -
    · have : (OCRPipeline.process_pdf call fuel n cache).1 = some OCRPipeline.PErr.missingPage := by
        simp [OCRPipeline.process_pdf, hp, ha]
      rw [this] at h
      exact Option.noConfusion h
    · have hr : OCRPipeline.process_pdf call fuel n cache = (none, c, k, some contents) := by
        simp [OCRPipeline.process_pdf, hp, ha]
      rw [hr]
      have htot := (OCRPipeline.processPages_ok call fuel (List.range' 1 n) cache 0 c k hp).2
      have hp2 := OCRPipeline.processPages_allHit call₂ fuel₂ (List.range' 1 n) c 0 htot
      simp [OCRPipeline.process_pdf, hp2, ha]
  · have : (OCRPipeline.process_pdf call fuel n cache).1 = some e := by
      simp [OCRPipeline.process_pdf, hp]
    rw [this] at h
    exact Option.noConfusion h

/-- C4 witness: a one-page PDF processed from an empty cache; the second run
is given an always-failing recognition oracle and zero retry fuel, yet
succeeds with zero recognition calls and the same output. -/
theorem C4_ocr_warm_cache_witness :
    OCRPipeline.process_pdf (fun _ _ => Except.error "down") 0 1
        ((OCRPipeline.process_pdf (fun _ _ => Except.ok ['h']) 1 1 OCRPipeline.emptyCache).2.1) =
      (none,
        (OCRPipeline.process_pdf (fun _ _ => Except.ok ['h']) 1 1 OCRPipeline.emptyCache).2.1, 0,
        (OCRPipeline.process_pdf (fun _ _ => Except.ok ['h']) 1 1 OCRPipeline.emptyCache).2.2.2) := by
  exact C4_ocr_warm_cache_idempotent (fun _ _ => Except.ok ['h']) 1 1 OCRPipeline.emptyCache
    rfl (fun _ _ => Except.error "down") 0

/-- C4 counterexample: in the audio pipeline a second run on the same URL
with a warm state does not perform zero recognition calls: `main` first
archives the existing transcripts out of the transcripts directory, so the
existence check misses and Gemini is called again (1 call, not 0). -/
theorem C4_transcribe_rerun_counterexample :
    (Transcribe.transcribe_main
        ⟨fun _ _ => Except.ok ("vid", "title"), fun _ => Except.ok ['t'], id, "P"⟩ ["u"]
        (Transcribe.transcribe_main
          ⟨fun _ _ => Except.ok ("vid", "title"), fun _ => Except.ok ['t'], id, "P"⟩ ["u"]
          ⟨[], []⟩).1).2.map Prod.snd = [1] := rfl

/-- C6: the assembled final output concatenates the per-unit sections in
ascending unit order `1..n` (first conjunct), and depends only on the cache
contents, not on the order in which the cache entries were populated: any
two population orders of the same entries yield identical output (second
conjunct). -/
theorem C6_assembly_ordering :
    (∀ (cache : OCRPipeline.Cache) (n : Nat),
        (∀ i, i ≤ n → 1 ≤ i → (cache i).isSome = true) →
        OCRPipeline.assembleFile cache n =
          (((List.range' 1 n).map
              (fun i => OCRPipeline.sectionFor i ((cache i).getD []))).flatten, true)) ∧
    (∀ (l₁ l₂ : List (Nat × List Char)) (n : Nat), l₁.Perm l₂ →
        (l₁.map Prod.fst).Nodup →
        OCRPipeline.assembleFile (OCRPipeline.buildCache l₁) n =
          OCRPipeline.assembleFile (OCRPipeline.buildCache l₂) n) := by
  constructor
  · exact OCRPipeline.assembleFile_complete
  · intro l₁ l₂ n hp hnd
    rw [OCRPipeline.buildCache_perm l₁ l₂ hp hnd]

/-- C6 witness: three units populated in the order 2, 1, 3 assemble to the
same output as when populated in the order 1, 2, 3, and the output is the
in-order concatenation of the three sections. -/
theorem C6_assembly_ordering_witness :
    OCRPipeline.assembleFile
        (OCRPipeline.buildCache [(2, ['b']), (1, ['a']), (3, ['c'])]) 3 =
      (((List.range' 1 3).map
          (fun i => OCRPipeline.sectionFor i
            ((OCRPipeline.buildCache [(2, ['b']), (1, ['a']), (3, ['c'])] i).getD []))).flatten,
        true) ∧
    OCRPipeline.assembleFile
        (OCRPipeline.buildCache [(2, ['b']), (1, ['a']), (3, ['c'])]) 3 =
      OCRPipeline.assembleFile
        (OCRPipeline.buildCache [(1, ['a']), (2, ['b']), (3, ['c'])]) 3 := by
  constructor
  · exact C6_assembly_ordering.1 (OCRPipeline.buildCache [(2, ['b']), (1, ['a']), (3, ['c'])])
      3 (by decide)
  · exact C6_assembly_ordering.2 [(2, ['b']), (1, ['a']), (3, ['c'])]
      [(1, ['a']), (2, ['b']), (3, ['c'])] 3 (by decide) (by decide)

/-- C7 (amended): in the audio pipeline every artifact of the batch is
processed — a per-artifact failure is caught and the loop continues, so the
outcome list always has one entry per URL (first conjunct).  In the OCR
pipeline, however, an artifact error is not caught: the batch loop aborts at
the first failing artifact and the remaining artifacts are not processed
(second conjunct). -/
theorem C7_batch_continuation :
    (∀ (o : Transcribe.Oracles) (urls transcripts : List String),
        (Transcribe.processLoop o urls transcripts).2.length = urls.length) ∧
    (∀ (runOne : String → Except String Unit) (a : String) (rest : List String) (e : String),
        runOne a = Except.error e →
        OCRPipeline.ocrBatch runOne (a :: rest) = ([], some e)) := by
  constructor
  · intro o urls
    induction urls with
    | nil => intro t; rfl
    | cons u rest ih =>
      intro t
      simp only [Transcribe.processLoop, List.length_cons]
      rw [ih]
  · intro runOne a rest e h
    simp [OCRPipeline.ocrBatch, h]

/-- C7 witness: a failing first URL in the audio pipeline still yields an
outcome for every URL; a failing first artifact in the OCR batch aborts
immediately. -/
theorem C7_batch_continuation_witness :
    (Transcribe.processLoop
        ⟨fun u _ => if u = "bad" then Except.error "decode" else Except.ok ("v", "t"),
          fun _ => Except.ok ['t'], id, "P"⟩ ["bad", "good"] []).2.length = 2 ∧
    OCRPipeline.ocrBatch
        (fun a => if a = "A" then Except.error "decode" else Except.ok ()) ["A", "B"] =
      ([], some "decode") := by
  constructor
  · exact C7_batch_continuation.1
      ⟨fun u _ => if u = "bad" then Except.error "decode" else Except.ok ("v", "t"),
        fun _ => Except.ok ['t'], id, "P"⟩ ["bad", "good"] []
  · exact C7_batch_continuation.2
      (fun a => if a = "A" then Except.error "decode" else Except.ok ()) "A" ["B"] "decode" rfl

/-- C7 counterexample: the claim says a decode failure is fatal only for
that artifact and the orchestrator continues with the rest; in the OCR
pipeline the failure aborts the whole batch: with artifact list
`["A", "B"]` where only "A" fails, nothing is processed after the error and
"B" — which would succeed — is never run. -/
theorem C7_ocr_abort_counterexample :
    OCRPipeline.ocrBatch
        (fun a => if a = "A" then Except.error "decode failure" else Except.ok ())
        ["A", "B"] = ([], some "decode failure") ∧
    (fun a => if a = "A" then Except.error "decode failure" else Except.ok ()) "B" =
      Except.ok () := ⟨rfl, rfl⟩

namespace Transcribe

theorem download_retry_spec (dl : Nat → Except String (String × String)) :
    ∀ (l : List Nat),
      (download_retry dl l).2.1 ≤ l.length ∧
      (∀ w ∈ (download_retry dl l).2.2, w = 5) ∧
      ((∀ a ∈ l, (dl a).isOk = false) →
        download_retry dl l = (none, l.length, List.replicate l.length 5)) := by
  intro l
  induction l with
  | nil => exact ⟨le_rfl, by simp [download_retry], fun _ => rfl⟩
  | cons a rest ih =>
    rcases hd : dl a with e | x
    · refine ⟨?_, ?_, ?_⟩
      · simp only [download_retry, hd, List.length_cons]
        omega
      · simp only [download_retry, hd]
        intro w hw
        rcases List.mem_cons.mp hw with he | hm
        · exact he
        · exact ih.2.1 w hm
      · intro hfail
        have hrest := ih.2.2 (fun b hb => hfail b (by simp [hb]))
        simp only [download_retry, hd, hrest, List.length_cons, List.replicate_succ]
    · refine ⟨?_, ?_, ?_⟩
      · simp only [download_retry, hd, List.length_cons]
        omega
      · simp only [download_retry, hd]
        intro w hw
        simp at hw
      · intro hfail
        have := hfail a (by simp)
        rw [hd] at this
        simp [Except.isOk, Except.toBool] at this

end Transcribe

/-- C8: remote downloads use a bounded retry distinct from the unbounded
recognition retry: on the attempt list `[1, 2, 3]` at most 3 attempts are
made, every sleep is the fixed 5 seconds (no growth), and when all three
attempts fail the result is `none`; in the main loop such a URL is skipped
(outcome `skippedDownload`, zero recognition calls) and the batch continues
with the remaining URLs. -/
theorem C8_bounded_download_retry :
    (∀ (dl : Nat → Except String (String × String)),
        (Transcribe.download_retry dl [1, 2, 3]).2.1 ≤ 3 ∧
        (∀ w ∈ (Transcribe.download_retry dl [1, 2, 3]).2.2, w = 5) ∧
        ((∀ a ∈ ([1, 2, 3] : List Nat), (dl a).isOk = false) →
          Transcribe.download_retry dl [1, 2, 3] = (none, 3, [5, 5, 5]))) ∧
    (∀ (o : Transcribe.Oracles) (transcripts : List String) (url : String)
        (rest : List String),
        (∀ a ∈ ([1, 2, 3] : List Nat), (o.dl url a).isOk = false) →
        Transcribe.transcribe_step o transcripts url =
          (transcripts, Transcribe.Outcome.skippedDownload, 0) ∧
        Transcribe.processLoop o (url :: rest) transcripts =
          ((Transcribe.processLoop o rest transcripts).1,
            (Transcribe.Outcome.skippedDownload, 0) ::
              (Transcribe.processLoop o rest transcripts).2)) := by
  constructor
  · intro dl
    have h := Transcribe.download_retry_spec dl [1, 2, 3]
    refine ⟨h.1, h.2.1, fun hfail => ?_⟩
    have := h.2.2 hfail
    simpa using this
  · intro o transcripts url rest hfail
    have hdl := (Transcribe.download_retry_spec (o.dl url) [1, 2, 3]).2.2 hfail
    have hstep : Transcribe.transcribe_step o transcripts url =
        (transcripts, Transcribe.Outcome.skippedDownload, 0) := by
      simp [Transcribe.transcribe_step, hdl]
    refine ⟨hstep, ?_⟩
    simp [Transcribe.processLoop, hstep]

/-- C8 witness: an always-failing downloader makes exactly 3 attempts with
sleeps `[5, 5, 5]`, the URL is skipped, and the next URL is still
processed. -/
theorem C8_bounded_download_retry_witness :
    Transcribe.download_retry (fun _ => Except.error "net") [1, 2, 3] =
      (none, 3, [5, 5, 5]) ∧
    Transcribe.processLoop
        ⟨fun _ _ => Except.error "net", fun _ => Except.ok ['t'], id, "P"⟩ ["u", "v"] [] =
      ((Transcribe.processLoop
          ⟨fun _ _ => Except.error "net", fun _ => Except.ok ['t'], id, "P"⟩ ["v"] []).1,
        (Transcribe.Outcome.skippedDownload, 0) ::
          (Transcribe.processLoop
            ⟨fun _ _ => Except.error "net", fun _ => Except.ok ['t'], id, "P"⟩ ["v"] []).2) := by
  constructor
  · exact (C8_bounded_download_retry.1 (fun _ => Except.error "net")).2.2 (by decide)
  · exact (C8_bounded_download_retry.2
      ⟨fun _ _ => Except.error "net", fun _ => Except.ok ['t'], id, "P"⟩ [] "u" ["v"]
      (by decide)).2

/-! ## Lemmas about URL deduplication -/

namespace Transcribe

theorem dedupSeen_foldl : ∀ (l seen res : List String),
    (l.foldl dedupStep (seen, res)).2 = res ++ dedupAux l seen := by
  intro l
  induction l with
  | nil => intro seen res; simp [dedupAux]
  | cons u rest ih =>
    intro seen res
    by_cases h : u ∈ seen
    · rw [List.foldl_cons, show dedupStep (seen, res) u = (seen, res) by simp [dedupStep, h],
        ih]
      simp only [dedupAux, if_pos h]
    · rw [List.foldl_cons,
        show dedupStep (seen, res) u = (u :: seen, res ++ [u]) by simp [dedupStep, h], ih]
      simp only [dedupAux, if_neg h]
      simp

theorem dedupAux_spec : ∀ (l seen : List String),
    dedupAux l seen = dedupSpec (l.filter (fun y => decide (y ∉ seen))) := by
  intro l
  induction l with
  | nil => intro seen; simp [dedupAux, dedupSpec]
  | cons u rest ih =>
    intro seen
    by_cases h : u ∈ seen
    · have hd : decide (u ∉ seen) = false := by simpa using h
      simp only [dedupAux, if_pos h, List.filter_cons, hd, Bool.false_eq_true, if_neg]
      exact ih seen
    · have hd : decide (u ∉ seen) = true := by simpa using h
      simp only [dedupAux, if_neg h, List.filter_cons, hd, if_pos]
      rw [show dedupSpec (u :: rest.filter (fun y => decide (y ∉ seen))) =
            u :: dedupSpec ((rest.filter (fun y => decide (y ∉ seen))).filter
              (fun y => y != u)) by simp [dedupSpec]]
      have hpt : ∀ y ∈ rest, ((y != u) && decide (y ∉ seen)) = decide (y ∉ u :: seen) := by
        intro y _
        by_cases h1 : y = u
        · subst h1; simp
        · simp [h1, List.mem_cons]
      rw [List.filter_filter, List.filter_congr hpt, ih (u :: seen)]

theorem dedupSpec_mem (l : List String) : ∀ a, a ∈ dedupSpec l ↔ a ∈ l := by
  induction l using dedupSpec.induct with
  | case1 => intro a; simp [dedupSpec]
  | case2 x xs ih =>
    intro a
    simp only [dedupSpec, List.mem_cons, ih a, List.mem_filter]
    by_cases h : a = x <;> simp [h]

theorem dedupSpec_nodup (l : List String) : (dedupSpec l).Nodup := by
  induction l using dedupSpec.induct with
  | case1 => simp [dedupSpec]
  | case2 x xs ih =>
    simp only [dedupSpec, List.nodup_cons]
    refine ⟨?_, ih⟩
    intro hx
    rw [dedupSpec_mem, List.mem_filter] at hx
    simp at hx

theorem dedupSpec_sublist (l : List String) : List.Sublist (dedupSpec l) l := by
  induction l using dedupSpec.induct with
  | case1 => simp [dedupSpec]
  | case2 x xs ih =>
    simp only [dedupSpec]
    exact List.Sublist.cons₂ x (ih.trans (List.filter_sublist xs))

end Transcribe

/-- C9: the URL list returned by `expand_urls` is the order-preserving
deduplication of the expanded sequence: it equals the spec-side
first-occurrence deduplication, contains no duplicates, is a subsequence of
the expanded sequence (so each survivor sits at its first occurrence's
position), and keeps exactly the URLs of the expanded sequence. -/
theorem C9_dedup_first_occurrence
    (normalize : String → String) (extract : String → Transcribe.ExtractResult)
    (urls : List String) :
    Transcribe.expand_urls normalize extract urls =
      Transcribe.dedupSpec (Transcribe.expandPhase normalize extract urls) ∧
    (Transcribe.expand_urls normalize extract urls).Nodup ∧
    List.Sublist (Transcribe.expand_urls normalize extract urls)
      (Transcribe.expandPhase normalize extract urls) ∧
    (∀ x, x ∈ Transcribe.expand_urls normalize extract urls ↔
      x ∈ Transcribe.expandPhase normalize extract urls) := by
  have he : Transcribe.expand_urls normalize extract urls =
      Transcribe.dedupSpec (Transcribe.expandPhase normalize extract urls) := by
    rw [Transcribe.expand_urls, Transcribe.dedupSeen, Transcribe.dedupSeen_foldl,
      Transcribe.dedupAux_spec]
    simp only [List.nil_append]
    congr 1
    apply List.filter_eq_self.mpr
    intro a _
    simp
  refine ⟨he, ?_, ?_, ?_⟩
  · rw [he]; exact Transcribe.dedupSpec_nodup _
  · rw [he]; exact Transcribe.dedupSpec_sublist _
  · intro x; rw [he]; exact Transcribe.dedupSpec_mem _ x

/-! ## Lemmas about filename sanitization -/

namespace Transcribe

theorem dropWhile_head_not (p : Char → Bool) :
    ∀ (l : List Char) (c : Char) (t : List Char), l.dropWhile p = c :: t → p c = false := by
  intro l
  induction l with
  | nil => intro c t h; simp at h
  | cons x xs ih =>
    intro c t h
    cases hp : p x with
    | false =>
      rw [List.dropWhile_cons, hp] at h
      simp only [Bool.false_eq_true, if_neg, if_false] at h
      injection h with h1 _
      rw [← h1]
      exact hp
    | true =>
      rw [List.dropWhile_cons, hp] at h
      simp only [if_true] at h
      exact ih c t h

theorem stripChar_eq_append (p : Char → Bool) (s : List Char) :
    s.dropWhile p = stripChar p s ++ ((s.dropWhile p).reverse.takeWhile p).reverse := by
  rw [stripChar, ← List.reverse_append, List.takeWhile_append_dropWhile, List.reverse_reverse]

theorem stripChar_head (p : Char → Bool) (s : List Char) (c : Char) (t : List Char)
    (h : stripChar p s = c :: t) : p c = false := by
  have hm := stripChar_eq_append p s
  rw [h] at hm
  exact dropWhile_head_not p s c (t ++ ((s.dropWhile p).reverse.takeWhile p).reverse) hm

theorem stripChar_getLast (p : Char → Bool) (s : List Char) (c : Char)
    (h : (stripChar p s).getLast? = some c) : p c = false := by
  rw [stripChar, List.getLast?_reverse] at h
  rcases hE : (s.dropWhile p).reverse.dropWhile p with - | ⟨x, xs⟩
  · rw [hE] at h; simp at h
  · rw [hE] at h
    simp only [List.head?_cons, Option.some.injEq] at h
    rw [← h]
    exact dropWhile_head_not p (s.dropWhile p).reverse x xs hE

theorem stripChar_subset (p : Char → Bool) (s : List Char) : stripChar p s ⊆ s := by
  intro c hc
  rw [stripChar, List.mem_reverse] at hc
  have h1 := (List.dropWhile_sublist p).subset hc
  rw [List.mem_reverse] at h1
  exact (List.dropWhile_sublist p).subset h1

theorem collapseWs_mem (isWS : Char → Bool) :
    ∀ (s : List Char) (b : Bool) (c : Char), c ∈ collapseWs isWS b s →
      c = '_' ∨ (c ∈ s ∧ isWS c = false) := by
  intro s
  induction s with
  | nil => intro b c h; simp [collapseWs] at h
  | cons x xs ih =>
    intro b c h
    cases hx : isWS x with
    | false =>
      simp only [collapseWs, hx, Bool.false_eq_true, if_neg, if_false] at h
      rcases List.mem_cons.mp h with he | hm
      · subst he
        exact Or.inr ⟨by simp, hx⟩
      · rcases ih false c hm with h1 | ⟨h2, h3⟩
        · exact Or.inl h1
        · exact Or.inr ⟨by simp [h2], h3⟩
    | true =>
      cases b with
      | false =>
        simp only [collapseWs, hx, if_true] at h
        rcases List.mem_cons.mp h with he | hm
        · exact Or.inl he
        · rcases ih true c hm with h1 | ⟨h2, h3⟩
          · exact Or.inl h1
          · exact Or.inr ⟨by simp [h2], h3⟩
      | true =>
        simp only [collapseWs, hx, if_true] at h
        rcases ih true c h with h1 | ⟨h2, h3⟩
        · exact Or.inl h1
        · exact Or.inr ⟨by simp [h2], h3⟩

theorem replaceForbidden_mem (s : List Char) (c : Char) (h : c ∈ replaceForbidden s) :
    forbidden c = false := by
  rw [replaceForbidden, List.mem_map] at h
  obtain ⟨a, -, ha⟩ := h
  subst ha
  by_cases hf : forbidden a = true
  · simp only [hf, if_true]
    decide
  · simp only [if_neg hf]
    simpa using hf

theorem take_cons_inv : ∀ (l : List Char) (n : Nat) (c : Char) (t : List Char),
    l.take n = c :: t → ∃ t2, l = c :: t2 := by
  intro l n c t h
  cases l with
  | nil => simp at h
  | cons y ys =>
    cases n with
    | zero => simp at h
    | succ m =>
      rw [List.take_succ_cons] at h
      injection h with h1 _
      exact ⟨ys, by rw [h1]⟩

end Transcribe

/-- C10 (amended): `sanitize_filename` returns a string of length at most
`max_len` that contains none of the characters `\/:*?"<>|`, contains no
whitespace character, and does not start with an underscore; and when no
truncation occurs (the stripped string already fits in `max_len`) it does
not end with an underscore either.  (After truncation a trailing underscore
is possible: see the counterexample.) -/
theorem C10_sanitize_properties (nfkc : List Char → List Char) (isWS : Char → Bool)
    (name : List Char) (maxLen : Nat) (hws : isWS '_' = false) :
    (Transcribe.sanitize_filename nfkc isWS name maxLen).length ≤ maxLen ∧
    (∀ c ∈ Transcribe.sanitize_filename nfkc isWS name maxLen,
      Transcribe.forbidden c = false) ∧
    (∀ c ∈ Transcribe.sanitize_filename nfkc isWS name maxLen, isWS c = false) ∧
    (∀ c t, Transcribe.sanitize_filename nfkc isWS name maxLen = c :: t →
      (c == '_') = false) ∧
    ((Transcribe.stripChar (fun c => c == '_')
        (Transcribe.collapseWs isWS false (Transcribe.replaceForbidden (nfkc name)))).length
          ≤ maxLen →
      ∀ c, (Transcribe.sanitize_filename nfkc isWS name maxLen).getLast? = some c →
        (c == '_') = false) := by
  have hmem : ∀ c ∈ Transcribe.sanitize_filename nfkc isWS name maxLen,
      c = '_' ∨ (c ∈ Transcribe.replaceForbidden (nfkc name) ∧ isWS c = false) := by
    intro c hc
    rw [Transcribe.sanitize_filename] at hc
    have h1 := List.take_subset maxLen _ hc
    have h2 := Transcribe.stripChar_subset (fun c => c == '_') _ h1
    exact Transcribe.collapseWs_mem isWS _ false c h2
  refine ⟨?_, ?_, ?_, ?_, ?_⟩
  · exact List.length_take_le maxLen _
  · intro c hc
    rcases hmem c hc with he | ⟨hm, -⟩
    · subst he; decide
    · exact Transcribe.replaceForbidden_mem _ c hm
  · intro c hc
    rcases hmem c hc with he | ⟨-, hw⟩
    · subst he; exact hws
    · exact hw
  · intro c t h
    rw [Transcribe.sanitize_filename] at h
    obtain ⟨t2, h2⟩ := Transcribe.take_cons_inv _ maxLen c t h
    exact Transcribe.stripChar_head (fun c => c == '_') _ c t2 h2
  · intro hlen c hc
    rw [Transcribe.sanitize_filename, List.take_of_length_le hlen] at hc
    exact Transcribe.stripChar_getLast (fun c => c == '_') _ c hc

/-- C10 witness: a concrete title containing a slash and a space sanitizes
to a short, clean filename satisfying every property. -/
theorem C10_sanitize_witness :
    Char.isWhitespace '_' = false ∧
    ((Transcribe.sanitize_filename id Char.isWhitespace ['a', '/', 'b', ' ', 'c'] 180).length
        ≤ 180 ∧
      (∀ c ∈ Transcribe.sanitize_filename id Char.isWhitespace ['a', '/', 'b', ' ', 'c'] 180,
        Transcribe.forbidden c = false) ∧
      (∀ c ∈ Transcribe.sanitize_filename id Char.isWhitespace ['a', '/', 'b', ' ', 'c'] 180,
        Char.isWhitespace c = false) ∧
      (∀ c t,
        Transcribe.sanitize_filename id Char.isWhitespace ['a', '/', 'b', ' ', 'c'] 180 =
          c :: t → (c == '_') = false) ∧
      ((Transcribe.stripChar (fun c => c == '_')
          (Transcribe.collapseWs Char.isWhitespace false
            (Transcribe.replaceForbidden (id ['a', '/', 'b', ' ', 'c'])))).length ≤ 180 →
        ∀ c,
          (Transcribe.sanitize_filename id Char.isWhitespace
            ['a', '/', 'b', ' ', 'c'] 180).getLast? = some c → (c == '_') = false)) :=
  ⟨by decide, C10_sanitize_properties id Char.isWhitespace ['a', '/', 'b', ' ', 'c'] 180
    (by decide)⟩

/-- C10 counterexample: the claim says the result never ends with an
underscore, but `strip("_")` runs before the `[:max_len]` truncation: a
179-character word followed by a space and another word sanitizes (with the
default `max_len = 180`) to a string whose 180th character is the underscore
that replaced the space — a trailing underscore. -/
theorem C10_sanitize_counterexample :
    (Transcribe.sanitize_filename id Char.isWhitespace
        (List.replicate 179 'a' ++ [' ', 'b']) 180).getLast? = some '_' := by
  rfl

/-! ## Lemmas about substring occurrence counting and header normalization -/

namespace PyStr

theorem digitChar_ne_newline (m : Nat) : digitChar m ≠ '\n' := by
  unfold digitChar
  split <;> decide

theorem natDigitsGo_length_pos : ∀ (fuel n : Nat), 0 < (natDigitsGo fuel n).length := by
  intro fuel n
  cases fuel with
  | zero => simp [natDigitsGo]
  | succ f =>
    rw [natDigitsGo]
    split
    · simp
    · simp

theorem natDigits_length_pos (n : Nat) : 0 < (natDigits n).length :=
  natDigitsGo_length_pos n n

theorem natDigitsGo_ne_newline : ∀ (fuel n : Nat) (c : Char), c ∈ natDigitsGo fuel n →
    c ≠ '\n' := by
  intro fuel
  induction fuel with
  | zero =>
    intro n c hc
    simp only [natDigitsGo, List.mem_singleton] at hc
    subst hc
    exact digitChar_ne_newline n
  | succ f ih =>
    intro n c hc
    rw [natDigitsGo] at hc
    split at hc
    · simp only [List.mem_singleton] at hc
      subst hc
      exact digitChar_ne_newline n
    · rcases List.mem_append.mp hc with h1 | h2
      · exact ih (n / 10) c h1
      · simp only [List.mem_singleton] at h2
        subst h2
        exact digitChar_ne_newline (n % 10)

theorem natDigits_ne_newline (n : Nat) (c : Char) (h : c ∈ natDigits n) : c ≠ '\n' :=
  natDigitsGo_ne_newline n n c h

end PyStr

namespace OCRPipeline

open PyStr

theorem isPrefixOf_length_le : ∀ (p s : List Char), p.isPrefixOf s = true →
    p.length ≤ s.length := by
  intro p
  induction p with
  | nil => intro s _; simp
  | cons a ps ih =>
    intro s h
    cases s with
    | nil => simp [List.isPrefixOf] at h
    | cons b bs =>
      simp only [List.isPrefixOf, Bool.and_eq_true] at h
      simp only [List.length_cons]
      exact Nat.succ_le_succ (ih bs h.2)

theorem isPrefixOf_refl : ∀ (l : List Char), l.isPrefixOf l = true := by
  intro l
  induction l with
  | nil => rfl
  | cons a as ih => simp [List.isPrefixOf, ih]

theorem isPrefixOf_append_right : ∀ (p u v : List Char), p.isPrefixOf u = true →
    p.isPrefixOf (u ++ v) = true := by
  intro p
  induction p with
  | nil => intro u v _; simp [List.isPrefixOf]
  | cons a ps ih =>
    intro u v h
    cases u with
    | nil => simp [List.isPrefixOf] at h
    | cons b bs =>
      simp only [List.cons_append, List.isPrefixOf, Bool.and_eq_true] at h ⊢
      exact ⟨h.1, ih bs v h.2⟩

theorem isPrefixOf_eq_append : ∀ (p s : List Char), p.isPrefixOf s = true →
    s = p ++ s.drop p.length := by
  intro p
  induction p with
  | nil => intro s _; simp
  | cons a ps ih =>
    intro s h
    cases s with
    | nil => simp [List.isPrefixOf] at h
    | cons b bs =>
      simp only [List.isPrefixOf, Bool.and_eq_true, beq_iff_eq] at h
      obtain ⟨rfl, h2⟩ := h
      simp only [List.length_cons, List.drop_succ_cons, List.cons_append]
      exact congrArg (List.cons a) (ih bs h2)

theorem isPrefixOf_sep (c : Char) : ∀ (u p v : List Char), c ∉ p →
    p.isPrefixOf (u ++ c :: v) = p.isPrefixOf u := by
  intro u
  induction u with
  | nil =>
    intro p v hc
    cases p with
    | nil => rfl
    | cons a ps =>
      have hac : (a == c) = false := by
        simp only [List.mem_cons, not_or] at hc
        exact beq_eq_false_iff_ne.mpr (Ne.symm hc.1)
      show (a == c && ps.isPrefixOf v) = (a :: ps).isPrefixOf []
      rw [hac]
      simp [List.isPrefixOf]
  | cons x xs ih =>
    intro p v hc
    cases p with
    | nil => rfl
    | cons a ps =>
      show (a == x && ps.isPrefixOf (xs ++ c :: v)) = (a == x && ps.isPrefixOf xs)
      rw [ih ps v (fun hm => hc (List.mem_cons_of_mem a hm))]

theorem countOccs_nil (p : List Char) (hp : p ≠ []) : countOccs p [] = 0 := by
  simp [countOccs, hp]

theorem countOccs_short (p : List Char) : ∀ (s : List Char), s.length < p.length →
    countOccs p s = 0 := by
  intro s
  induction s with
  | nil =>
    intro h
    have hp : p ≠ [] := by intro he; rw [he] at h; simp at h
    simp [countOccs, hp]
  | cons x xs ih =>
    intro h
    have h1 : p.isPrefixOf (x :: xs) = false := by
      cases hb : p.isPrefixOf (x :: xs) with
      | false => rfl
      | true =>
        exfalso
        have := isPrefixOf_length_le p (x :: xs) hb
        simp only [List.length_cons] at h this
        omega
    have h2 : xs.length < p.length := by
      simp only [List.length_cons] at h
      omega
    simp [countOccs, h1, ih h2]

theorem countOccs_pos (p : List Char) (hp : p ≠ []) :
    ∀ s, p.isPrefixOf s = true → countOccs p s ≠ 0 := by
  intro s h
  cases s with
  | nil =>
    cases p with
    | nil => exact absurd rfl hp
    | cons a ps => simp [List.isPrefixOf] at h
  | cons x xs => simp [countOccs, h]

theorem countOccs_append_sep (p : List Char) (c : Char) (hp : p ≠ []) (hc : c ∉ p) :
    ∀ (u v : List Char), countOccs p (u ++ c :: v) = countOccs p u + countOccs p v := by
  intro u
  induction u with
  | nil =>
    intro v
    have h1 : p.isPrefixOf (c :: v) = false := by
      have hs := isPrefixOf_sep c [] p v hc
      rw [List.nil_append] at hs
      rw [hs]
      cases p with
      | nil => exact absurd rfl hp
      | cons a ps => rfl
    simp [countOccs, h1, countOccs_nil p hp, hp]
  | cons x xs ih =>
    intro v
    have h1 : p.isPrefixOf (x :: (xs ++ c :: v)) = p.isPrefixOf (x :: xs) := by
      have hs := isPrefixOf_sep c (x :: xs) p v hc
      simpa using hs
    have e1 : countOccs p ((x :: xs) ++ c :: v) =
        (if p.isPrefixOf (x :: (xs ++ c :: v)) = true then 1 else 0) +
          countOccs p (xs ++ c :: v) := rfl
    have e2 : countOccs p (x :: xs) =
        (if p.isPrefixOf (x :: xs) = true then 1 else 0) + countOccs p xs := rfl
    rw [e1, e2, h1, ih v]
    omega

theorem countOccs_self (p : List Char) (hp : p ≠ []) : countOccs p p = 1 := by
  cases p with
  | nil => exact absurd rfl hp
  | cons a ps =>
    have h1 : countOccs (a :: ps) ps = 0 := countOccs_short _ ps (by simp)
    simp [countOccs, isPrefixOf_refl, h1]

theorem countOccs_le_append (p : List Char) : ∀ (u v : List Char),
    countOccs p v ≤ countOccs p (u ++ v) := by
  intro u
  induction u with
  | nil => intro v; simp
  | cons x xs ih =>
    intro v
    have e1 : countOccs p ((x :: xs) ++ v) =
        (if p.isPrefixOf (x :: (xs ++ v)) = true then 1 else 0) + countOccs p (xs ++ v) := rfl
    rw [e1]
    have := ih v
    omega

theorem countOccs_zero_append (p : List Char) (hp : p ≠ []) :
    ∀ (u v : List Char), countOccs p (u ++ v) = 0 →
      countOccs p u = 0 ∧ countOccs p v = 0 := by
  intro u
  induction u with
  | nil => intro v h; exact ⟨countOccs_nil p hp, h⟩
  | cons x xs ih =>
    intro v h
    have e1 : countOccs p ((x :: xs) ++ v) =
        (if p.isPrefixOf (x :: (xs ++ v)) = true then 1 else 0) + countOccs p (xs ++ v) := rfl
    rw [e1] at h
    have h2 : countOccs p (xs ++ v) = 0 := by omega
    have h1 : (if p.isPrefixOf (x :: (xs ++ v)) = true then 1 else 0) = 0 := by omega
    obtain ⟨hxs, hv⟩ := ih v h2
    have h3 : p.isPrefixOf (x :: xs) = false := by
      cases hb : p.isPrefixOf (x :: xs) with
      | false => rfl
      | true =>
        exfalso
        have hext := isPrefixOf_append_right p (x :: xs) v hb
        rw [List.cons_append] at hext
        rw [hext] at h1
        simp at h1
    refine ⟨?_, hv⟩
    simp [countOccs, h3, hxs]

theorem countOccs_drop_zero (p s : List Char) (hp : p ≠ [])
    (hpre : p.isPrefixOf s = true) (hcount : countOccs p s = 1) :
    countOccs p (s.drop p.length) = 0 := by
  obtain ⟨a, ps, rfl⟩ : ∃ a ps, p = a :: ps := by
    cases p with
    | nil => exact absurd rfl hp
    | cons a ps => exact ⟨a, ps, rfl⟩
  have hdecomp : s = (a :: ps) ++ s.drop (a :: ps).length := isPrefixOf_eq_append _ s hpre
  have h1 : countOccs (a :: ps) ((a :: ps) ++ s.drop (a :: ps).length) = 1 := by
    rw [← hdecomp]; exact hcount
  have hpe : (a :: ps).isPrefixOf (a :: (ps ++ s.drop (a :: ps).length)) = true := by
    rw [← List.cons_append]
    exact isPrefixOf_append_right _ _ _ (isPrefixOf_refl _)
  rw [List.cons_append] at h1
  have hstep : countOccs (a :: ps) (a :: (ps ++ s.drop (a :: ps).length)) =
      1 + countOccs (a :: ps) (ps ++ s.drop (a :: ps).length) := by
    simp [countOccs, hpe]
  rw [hstep] at h1
  have hle := countOccs_le_append (a :: ps) ps (s.drop (a :: ps).length)
  omega

theorem rstrip_append_eq (s : List Char) :
    rstrip s ++ (s.reverse.takeWhile pyWS).reverse = s := by
  rw [rstrip, ← List.reverse_append, List.takeWhile_append_dropWhile, List.reverse_reverse]

theorem countOccs_rstrip_zero (p s : List Char) (hp : p ≠ []) (h : countOccs p s = 0) :
    countOccs p (rstrip s) = 0 :=
  (countOccs_zero_append p hp (rstrip s) ((s.reverse.takeWhile pyWS).reverse)
    (by rw [rstrip_append_eq s]; exact h)).1

theorem countOccs_lstrip_zero (p s : List Char) (hp : p ≠ []) (h : countOccs p s = 0) :
    countOccs p (lstrip s) = 0 :=
  (countOccs_zero_append p hp (s.takeWhile pyWS) (lstrip s)
    (by simp only [lstrip, List.takeWhile_append_dropWhile]; exact h)).2

theorem header_length (i : Nat) : 13 ≤ (header i).length := by
  have := natDigits_length_pos i
  simp only [header, List.length_append, List.length_cons, List.length_nil]
  omega

theorem header_ne_nil (i : Nat) : header i ≠ [] := by
  intro h
  have := header_length i
  rw [h] at this
  simp at this

theorem newline_not_mem_header (i : Nat) : '\n' ∉ header i := by
  intro h
  simp only [header, List.mem_append] at h
  rcases h with (h1 | h2) | h3
  · exact absurd h1 (by decide)
  · exact natDigits_ne_newline i '\n' h2 rfl
  · exact absurd h3 (by decide)

theorem lstrip_cons_of_neg (c : Char) (hc : pyWS c = false) (Y : List Char) :
    lstrip (c :: Y) = c :: Y := by
  simp [lstrip, List.dropWhile_cons, hc]

theorem lstrip_header_append (i : Nat) (X : List Char) :
    lstrip (header i ++ X) = header i ++ X := by
  rw [show header i ++ X =
    '=' :: (((['=', '=', ' ', 'P', 'a', 'g', 'e', ' '] ++ natDigits i) ++
      [' ', '=', '=', '=']) ++ X) from rfl]
  exact lstrip_cons_of_neg '=' (by decide) _

theorem countOccs_section (i : Nat) (body : List Char)
    (h : countOccs (header i) body = 0) :
    countOccs (header i) (header i ++ '\n' :: (body ++ ['\n', '\n'])) = 1 := by
  have hne := header_ne_nil i
  have hnl := newline_not_mem_header i
  rw [countOccs_append_sep (header i) '\n' hne hnl (header i) (body ++ ['\n', '\n']),
    countOccs_self (header i) hne,
    countOccs_append_sep (header i) '\n' hne hnl body ['\n'], h,
    countOccs_short (header i) ['\n'] (by have := header_length i; simp; omega)]

end OCRPipeline

/-- C5: header normalization in reassembly.  For a cache entry that begins
with the canonical header of its unit and contains it nowhere else
(`countOccs = 1`), the emitted section contains that header exactly once —
the duplicate leading header is stripped, not doubled; for a cache entry not
containing the header at all, exactly one header is prepended. -/
theorem C5_header_normalization (i : Nat) (t : List Char) :
    ((OCRPipeline.header i).isPrefixOf t = true →
      OCRPipeline.countOccs (OCRPipeline.header i) t = 1 →
      OCRPipeline.countOccs (OCRPipeline.header i) (OCRPipeline.sectionFor i t) = 1) ∧
    (OCRPipeline.countOccs (OCRPipeline.header i) t = 0 →
      OCRPipeline.countOccs (OCRPipeline.header i) (OCRPipeline.sectionFor i t) = 1) := by
  have hne := OCRPipeline.header_ne_nil i
  constructor
  · intro hpre hcount
    have hdecomp : t = OCRPipeline.header i ++ t.drop (OCRPipeline.header i).length :=
      OCRPipeline.isPrefixOf_eq_append _ t hpre
    have hr0 := OCRPipeline.countOccs_drop_zero _ t hne hpre hcount
    have hpt : PyStr.lstrip t = t := by
      conv_lhs => rw [hdecomp]
      rw [OCRPipeline.lstrip_header_append]
      exact hdecomp.symm
    have hsec : OCRPipeline.sectionFor i t =
        OCRPipeline.header i ++ '\n' ::
          (PyStr.rstrip (PyStr.lstrip (t.drop (OCRPipeline.header i).length)) ++
            ['\n', '\n']) := by
      simp only [OCRPipeline.sectionFor, hpt, hpre, if_true]
    rw [hsec]
    exact OCRPipeline.countOccs_section i _
      (OCRPipeline.countOccs_rstrip_zero _ _ hne
        (OCRPipeline.countOccs_lstrip_zero _ _ hne hr0))
  · intro hzero
    have hl0 := OCRPipeline.countOccs_lstrip_zero _ t hne hzero
    have hif : (OCRPipeline.header i).isPrefixOf (PyStr.lstrip t) = false := by
      cases hb : (OCRPipeline.header i).isPrefixOf (PyStr.lstrip t) with
      | false => rfl
      | true => exact absurd hl0 (OCRPipeline.countOccs_pos _ hne _ hb)
    have hsec : OCRPipeline.sectionFor i t =
        OCRPipeline.header i ++ '\n' :: (PyStr.rstrip (PyStr.lstrip t) ++ ['\n', '\n']) := by
      simp only [OCRPipeline.sectionFor, hif, Bool.false_eq_true, if_false]
    rw [hsec]
    exact OCRPipeline.countOccs_section i _
      (OCRPipeline.countOccs_rstrip_zero _ _ hne hl0)

/-- C5 witness: a cache entry that already begins with `=== Page 1 ===`
yields a section containing the header exactly once, and one without the
header gets exactly one header prepended. -/
theorem C5_header_normalization_witness :
    OCRPipeline.countOccs (OCRPipeline.header 1)
        (OCRPipeline.sectionFor 1
          (OCRPipeline.header 1 ++ '\n' :: ['h', 'e', 'l', 'l', 'o'])) = 1 ∧
    OCRPipeline.countOccs (OCRPipeline.header 1)
        (OCRPipeline.sectionFor 1 ['h', 'e', 'l', 'l', 'o']) = 1 := by
  constructor
  · exact (C5_header_normalization 1
      (OCRPipeline.header 1 ++ '\n' :: ['h', 'e', 'l', 'l', 'o'])).1 (by decide) (by decide)
  · exact (C5_header_normalization 1 ['h', 'e', 'l', 'l', 'o']).2 (by decide)
